import Mathlib

/-!
Verification of the latency-tester (`src/index.js`): a shallow embedding of
the statistics aggregator `computeStats`, the DNS probe result construction,
the WebSocket handshake settlement logic, the WebSocket ping/pong loop and
the orchestrator's measured-round loops, with theorems settling the spec's
claims about them.

Latency samples are elapsed times in milliseconds; the source holds them as
JS numbers and here they are modelled as exact rationals (`ℚ`), so every
arithmetic formula of the source is stated exactly.
-/

namespace Latency

/-- Measured rounds per endpoint (source constant `ROUNDS = 30`). -/
def ROUNDS : ℕ := 30

/-- Pings per opened WebSocket (source constant `WS_PING_ROUNDS = 30`). -/
def WS_PING_ROUNDS : ℕ := 30

/-- The statistics record built by `computeStats` (source lines 48-74).
`stddev` is `Math.sqrt` of the variance, hence real-valued; every other
field is rational arithmetic over the samples. -/
structure Stats where
  avg : ℚ
  min : ℚ
  max : ℚ
  median : ℚ
  p95 : ℚ
  p99 : ℚ
  stddev : ℝ
  jitter : ℚ
  samples : ℕ

/-- `const sorted = [...times].sort((a, b) => a - b)`: ascending sort of a
copy of the samples (the original list is untouched; here sorting is pure). -/
def sortedOf (times : List ℚ) : List ℚ :=
  times.mergeSort

/-- `const sum = times.reduce((s, t) => s + t, 0)`. -/
def sumOf (times : List ℚ) : ℚ :=
  times.foldl (fun s t => s + t) 0

/-- `const avg = sum / times.length`. -/
def avgOf (times : List ℚ) : ℚ :=
  sumOf times / (times.length : ℚ)

/-- The `median` expression: for even length the mean of the two central
values of the sorted copy, otherwise the single central value. -/
def medianOf (times : List ℚ) : ℚ :=
  let sorted := sortedOf times
  if sorted.length % 2 = 0 then
    (sorted.getD (sorted.length / 2 - 1) 0 + sorted.getD (sorted.length / 2) 0) / 2
  else
    sorted.getD (sorted.length / 2) 0

/-- `const p95 = sorted[Math.ceil(sorted.length * 0.95) - 1]`. -/
def p95Of (times : List ℚ) : ℚ :=
  let sorted := sortedOf times
  sorted.getD (⌈(sorted.length : ℚ) * (95 / 100)⌉ - 1).toNat 0

/-- `const p99 = sorted[Math.ceil(sorted.length * 0.99) - 1]`. -/
def p99Of (times : List ℚ) : ℚ :=
  let sorted := sortedOf times
  sorted.getD (⌈(sorted.length : ℚ) * (99 / 100)⌉ - 1).toNat 0

/-- `const variance = times.reduce((s, t) => s + (t - avg) ** 2, 0) / times.length`. -/
def varianceOf (times : List ℚ) : ℚ :=
  times.foldl (fun s t => s + (t - avgOf times) ^ 2) 0 / (times.length : ℚ)

/-- `const stddev = Math.sqrt(variance)`. -/
noncomputable def stddevOf (times : List ℚ) : ℝ :=
  Real.sqrt (varianceOf times : ℝ)

/-- The jitter accumulation loop
`for (let i = 1; i < times.length; i++) jitter += Math.abs(times[i] - times[i-1])`. -/
def absDiffSum : List ℚ → ℚ
  | a :: b :: rest => |b - a| + absDiffSum (b :: rest)
  | _ => 0

/-- The `jitter` value: the accumulated absolute consecutive differences
divided by `times.length - 1` when there is more than one sample, else 0. -/
def jitterOf (times : List ℚ) : ℚ :=
  if 1 < times.length then absDiffSum times / ((times.length : ℚ) - 1) else 0

/-- `computeStats(times)` (source lines 48-74): `null` on an empty sample
list, otherwise the record of descriptive statistics. Only the `stddev`
field involves the real square root; every rational field of the result
still evaluates by kernel reduction on concrete inputs. -/
noncomputable def computeStats (times : List ℚ) : Option Stats :=
  if times.length = 0 then none
  else some
    { avg := avgOf times
      min := (sortedOf times).getD 0 0
      max := (sortedOf times).getD ((sortedOf times).length - 1) 0
      median := medianOf times
      p95 := p95Of times
      p99 := p99Of times
      stddev := stddevOf times
      jitter := jitterOf times
      samples := times.length }

/-- One measured round of an orchestrator loop: either the probe succeeded
and its sample (e.g. the TTFB) is recorded, or it threw and the error
message is recorded. -/
inductive RoundOutcome where
  | ok (t : ℚ)
  | err (msg : String)
  deriving Repr, DecidableEq

/-- The measured-round loop of `runAPITests` (source lines 324-334 for the
cold variant, 361-371 for keep-alive; `runWSTests` lines 440-450 have the
same shape): each round pushes its sample into the sample list on success,
or its message into the error list on failure, and the loop continues either
way through all rounds. -/
def measuredRounds (outcomes : List RoundOutcome) : List ℚ × List String :=
  outcomes.foldl
    (fun acc o =>
      match o with
      | .ok t => (acc.1 ++ [t], acc.2)
      | .err m => (acc.1, acc.2 ++ [m]))
    ([], [])

/-- The sample a round contributes, if any. -/
def sampleOf : RoundOutcome → Option ℚ
  | .ok t => some t
  | .err _ => none

/-- The error message a round contributes, if any. -/
def errorOf : RoundOutcome → Option String
  | .ok _ => none
  | .err m => some m

/-- An asynchronous event that can reach the `measureWS` promise: the
socket's `open` event (with the elapsed handshake time), its `error` event,
or the 10 s timer firing. -/
inductive WSEvent where
  | opened (elapsed : ℚ)
  | errored (msg : String)
  | timedOut
  deriving Repr, DecidableEq

/-- The settled outcome of `measureWS`: resolved with the handshake time,
rejected with the error, or rejected with `WS Timeout`. -/
inductive WSOutcome where
  | success (elapsed : ℚ)
  | failure (msg : String)
  | timeout
  deriving Repr, DecidableEq

/-- The outcome the handler of a given event settles on. -/
def eventOutcome : WSEvent → WSOutcome
  | .opened t => .success t
  | .errored m => .failure m
  | .timedOut => .timeout

/-- One event handler of `measureWS` (source lines 176-196): each of the
`open`, `error` and timeout handlers first checks the shared `settled` flag
and returns without effect when it is already set; otherwise it sets the
flag and settles the promise with its outcome. The state is `none` while
unsettled and `some o` once settled on `o`. -/
def settleEvent : Option WSOutcome → WSEvent → Option WSOutcome
  | some o, _ => some o
  | none, e => some (eventOutcome e)

/-- `measureWS` as a function of the sequence of events that reach its
handlers, in arrival order (Node delivers them sequentially). -/
def measureWS (events : List WSEvent) : Option WSOutcome :=
  events.foldl settleEvent none

/-- One ping round of `measureWSPingPong`: either the matching pong arrived
within the 5 s per-ping timeout and the round-trip time was measured, or
the inner promise rejected (timeout or error) and the `catch {}` dropped
the round. -/
inductive PingOutcome where
  | pong (rtt : ℚ)
  | dropped
  deriving Repr, DecidableEq

/-- Whether a ping round was dropped. -/
def isDropped : PingOutcome → Bool
  | .pong _ => false
  | .dropped => true

/-- The ping loop of `measureWSPingPong` on a successfully opened connection
(source lines 211-240): each of the `rounds` rounds pushes its measured RTT
into `times` on success and is skipped on failure, the loop always proceeds
to the next round, and after the last round the socket is closed
(`ws.close()`) and `times` is resolved. The boolean records that the
connection was closed. -/
def measureWSPingPong (outcomes : List PingOutcome) : List ℚ × Bool :=
  (outcomes.foldl
    (fun ts o =>
      match o with
      | .pong r => ts ++ [r]
      | .dropped => ts)
    [], true)

/-- The result record of `measureDNS`: elapsed time of the attempt, the
resolved IPv4 addresses, and the error code when resolution failed. -/
structure DNSResult where
  time : ℚ
  addresses : List String
  error : Option String
  deriving Repr, DecidableEq

/-- `measureDNS`'s resolution callback (source lines 81-84): it always
resolves — never rejects — building `{time: elapsed, addresses:
addresses || [], error: err ? err.code : null}` from the elapsed time and
the resolver's outcome (`.ok` the address list, `.error` the error code). -/
def measureDNS (elapsed : ℚ) : Except String (List String) → DNSResult
  | .ok addrs => { time := elapsed, addresses := addrs, error := none }
  | .error code => { time := elapsed, addresses := [], error := some code }

end Latency

namespace Latency

/-! ## Basic facts about the sorted copy -/

theorem sortedOf_perm (times : List ℚ) : (sortedOf times).Perm times :=
  List.mergeSort_perm times _

theorem length_sortedOf (times : List ℚ) : (sortedOf times).length = times.length :=
  (sortedOf_perm times).length_eq

theorem sortedOf_sorted (times : List ℚ) : List.Sorted (· ≤ ·) (sortedOf times) :=
  List.sorted_mergeSort' times

theorem mem_sortedOf {x : ℚ} {times : List ℚ} : x ∈ sortedOf times ↔ x ∈ times :=
  (sortedOf_perm times).mem_iff

/-- An in-range `getD` is a member of the list. -/
theorem getD_mem {l : List ℚ} {i : ℕ} (h : i < l.length) : l.getD i 0 ∈ l := by
  rw [List.getD_eq_getElem?_getD, List.getElem?_eq_getElem h]
  exact List.getElem_mem h

/-- In a `≤`-sorted list the first element is a lower bound of every member. -/
theorem sorted_getD_zero_le {l : List ℚ} (hs : List.Sorted (· ≤ ·) l)
    {x : ℚ} (hx : x ∈ l) : l.getD 0 0 ≤ x := by
  obtain ⟨⟨i, hi⟩, rfl⟩ := List.mem_iff_get.mp hx
  have h0 : 0 < l.length := Nat.pos_of_ne_zero (by intro h; simp [h] at hi)
  rw [List.getD_eq_getElem?_getD, List.getElem?_eq_getElem h0]
  exact hs.rel_get_of_le
    (show (⟨0, h0⟩ : Fin l.length) ≤ ⟨i, hi⟩ from Fin.mk_le_mk.mpr (Nat.zero_le i))

/-- In a `≤`-sorted list the last element is an upper bound of every member. -/
theorem sorted_le_getD_last {l : List ℚ} (hs : List.Sorted (· ≤ ·) l)
    {x : ℚ} (hx : x ∈ l) : x ≤ l.getD (l.length - 1) 0 := by
  obtain ⟨⟨i, hi⟩, rfl⟩ := List.mem_iff_get.mp hx
  have h0 : l.length - 1 < l.length := by omega
  rw [List.getD_eq_getElem?_getD, List.getElem?_eq_getElem h0]
  exact hs.rel_get_of_le
    (show (⟨i, hi⟩ : Fin l.length) ≤ ⟨l.length - 1, h0⟩ from Fin.mk_le_mk.mpr (by omega))

/-! ## Unfolding `computeStats` on a non-empty list -/

theorem computeStats_of_ne_nil {times : List ℚ} (h : times ≠ []) :
    computeStats times = some
      { avg := avgOf times
        min := (sortedOf times).getD 0 0
        max := (sortedOf times).getD ((sortedOf times).length - 1) 0
        median := medianOf times
        p95 := p95Of times
        p99 := p99Of times
        stddev := stddevOf times
        jitter := jitterOf times
        samples := times.length } := by
  rw [computeStats, if_neg (by simpa using h)]

theorem computeStats_fields {times : List ℚ} {s : Stats}
    (h : computeStats times = some s) :
    times ≠ [] ∧ s.avg = avgOf times ∧ s.min = (sortedOf times).getD 0 0 ∧
      s.max = (sortedOf times).getD ((sortedOf times).length - 1) 0 ∧
      s.median = medianOf times ∧ s.p95 = p95Of times ∧ s.p99 = p99Of times ∧
      s.stddev = stddevOf times ∧ s.jitter = jitterOf times ∧
      s.samples = times.length := by
  rw [computeStats] at h
  split at h
  · exact absurd h (by simp)
  · next hne =>
    obtain rfl := Option.some.inj h
    exact ⟨by simpa [← List.length_pos] using Nat.pos_of_ne_zero hne,
      rfl, rfl, rfl, rfl, rfl, rfl, rfl, rfl, rfl⟩

/-! ## Sums and folds -/

theorem foldl_add_eq (l : List ℚ) (c : ℚ) :
    l.foldl (fun s t => s + t) c = c + l.sum := by
  induction l generalizing c with
  | nil => simp
  | cons x xs ih => simp only [List.foldl_cons, ih, List.sum_cons]; ring

theorem sumOf_eq_sum (times : List ℚ) : sumOf times = times.sum := by
  simp [sumOf, foldl_add_eq]

theorem foldl_add_sq_eq (l : List ℚ) (a c : ℚ) :
    l.foldl (fun s t => s + (t - a) ^ 2) c = c + ((l.map fun t => (t - a) ^ 2).sum) := by
  induction l generalizing c with
  | nil => simp
  | cons x xs ih => simp only [List.foldl_cons, ih, List.map_cons, List.sum_cons]; ring

theorem varianceOf_eq (times : List ℚ) :
    varianceOf times =
      ((times.map fun t => (t - avgOf times) ^ 2).sum) / (times.length : ℚ) := by
  rw [varianceOf, foldl_add_sq_eq, zero_add]

theorem absDiffSum_eq (l : List ℚ) :
    absDiffSum l =
      ∑ i ∈ Finset.range (l.length - 1), |l.getD (i + 1) 0 - l.getD i 0| := by
  induction l with
  | nil => simp [absDiffSum]
  | cons a tail ih =>
    cases tail with
    | nil => simp [absDiffSum]
    | cons b rest =>
      rw [absDiffSum, ih]
      have h1 : (a :: b :: rest : List ℚ).length - 1 = rest.length + 1 := by simp
      have h2 : (b :: rest : List ℚ).length - 1 = rest.length := by simp
      rw [h1, h2, Finset.sum_range_succ']
      simp only [List.getD_cons_succ, List.getD_cons_zero]
      ring

/-! ## The measured-round loop -/

/-- The measured-round loop records exactly the successful rounds' samples
and the failed rounds' messages, each in round order. -/
theorem measuredRounds_eq (outcomes : List RoundOutcome) :
    measuredRounds outcomes =
      (outcomes.filterMap sampleOf, outcomes.filterMap errorOf) := by
  suffices h : ∀ acc : List ℚ × List String,
      outcomes.foldl
        (fun acc o =>
          match o with
          | RoundOutcome.ok t => (acc.1 ++ [t], acc.2)
          | RoundOutcome.err m => (acc.1, acc.2 ++ [m])) acc =
      (acc.1 ++ outcomes.filterMap sampleOf, acc.2 ++ outcomes.filterMap errorOf) by
    simpa [measuredRounds] using h ([], [])
  induction outcomes with
  | nil => simp
  | cons o rest ih =>
    intro acc
    cases o with
    | ok t => simp [List.filterMap_cons, sampleOf, errorOf, ih]
    | err m => simp [List.filterMap_cons, sampleOf, errorOf, ih]

/-! ## Percentile index bounds -/

/-- For `0 < q ≤ 1` and a non-empty list, the nearest-rank index
`⌈N·q⌉ − 1` is a valid index. -/
theorem percentile_index_lt {n : ℕ} (hn : 0 < n) {q : ℚ} (h0 : 0 < q) (h1 : q ≤ 1) :
    (⌈(n : ℚ) * q⌉ - 1).toNat < n := by
  have hn' : (0 : ℚ) < n := by exact_mod_cast hn
  have hub : ⌈(n : ℚ) * q⌉ ≤ (n : ℤ) := by
    rw [Int.ceil_le]
    push_cast
    nlinarith
  have hlb : 0 < ⌈(n : ℚ) * q⌉ := Int.ceil_pos.mpr (by positivity)
  omega

/-- Unfolding `medianOf` for even sample counts. -/
theorem medianOf_even {times : List ℚ} (h : times.length % 2 = 0) :
    medianOf times = ((sortedOf times).getD (times.length / 2 - 1) 0 +
      (sortedOf times).getD (times.length / 2) 0) / 2 := by
  simp only [medianOf, length_sortedOf]
  rw [if_pos h]

/-- Unfolding `medianOf` for odd sample counts. -/
theorem medianOf_odd {times : List ℚ} (h : times.length % 2 = 1) :
    medianOf times = (sortedOf times).getD (times.length / 2) 0 := by
  simp only [medianOf, length_sortedOf]
  rw [if_neg (by omega)]

/-! ## The claims -/

/-- Claim C1: for every non-empty sample list of length `N`, `computeStats`
returns `p95` equal to the element at index `⌈N·0.95⌉ − 1` and `p99` equal
to the element at index `⌈N·0.99⌉ − 1` of the sorted copy of the list
(nearest rank, no interpolation), and both indices lie within the valid
range `[0, N)`. -/
theorem computeStats_p95_p99_nearest_rank (times : List ℚ) (h : times ≠ []) :
    ∃ s, computeStats times = some s ∧
      (⌈(times.length : ℚ) * (95 / 100)⌉ - 1).toNat < times.length ∧
      (⌈(times.length : ℚ) * (99 / 100)⌉ - 1).toNat < times.length ∧
      s.p95 = (sortedOf times).getD (⌈(times.length : ℚ) * (95 / 100)⌉ - 1).toNat 0 ∧
      s.p99 = (sortedOf times).getD (⌈(times.length : ℚ) * (99 / 100)⌉ - 1).toNat 0 := by
  have hpos : 0 < times.length := List.length_pos.mpr h
  refine ⟨_, computeStats_of_ne_nil h, ?_, ?_, ?_, ?_⟩
  · exact percentile_index_lt hpos (by norm_num) (by norm_num)
  · exact percentile_index_lt hpos (by norm_num) (by norm_num)
  · simp [p95Of, length_sortedOf]
  · simp [p99Of, length_sortedOf]

/-- Witness for C1 at the spec's example `[10, 20, 30, 40, 50]`: both
percentile indices are `⌈5·q⌉ − 1 = 4`, so `p95 = p99 = 50`. -/
theorem computeStats_p95_p99_nearest_rank_witness :
    (computeStats [10, 20, 30, 40, 50]).map Stats.p95 = some 50 ∧
    (computeStats [10, 20, 30, 40, 50]).map Stats.p99 = some 50 := by
  obtain ⟨s, hs, -, -, h95, h99⟩ :=
    computeStats_p95_p99_nearest_rank [10, 20, 30, 40, 50] (by simp)
  have hsort : sortedOf [10, 20, 30, 40, 50] = [10, 20, 30, 40, 50] :=
    List.mergeSort_eq_self (by decide)
  have hc95 : ⌈(([10, 20, 30, 40, 50] : List ℚ).length : ℚ) * (95 / 100)⌉ = 5 := by
    rw [Int.ceil_eq_iff]
    norm_num
  have hc99 : ⌈(([10, 20, 30, 40, 50] : List ℚ).length : ℚ) * (99 / 100)⌉ = 5 := by
    rw [Int.ceil_eq_iff]
    norm_num
  rw [hs]
  simp only [Option.map_some']
  rw [h95, h99, hsort, hc95, hc99]
  norm_num [List.getD]
  decide

/-- Claim C2: for every non-empty sample list, the `median` returned by
`computeStats` is the average of the two central values of the sorted copy
(0-based indices `N/2 − 1` and `N/2`) when `N` is even, and the single
central value at index `⌊N/2⌋` when `N` is odd. -/
theorem computeStats_median_central (times : List ℚ) (s : Stats)
    (h : computeStats times = some s) :
    (times.length % 2 = 0 →
      s.median = ((sortedOf times).getD (times.length / 2 - 1) 0 +
        (sortedOf times).getD (times.length / 2) 0) / 2) ∧
    (times.length % 2 = 1 →
      s.median = (sortedOf times).getD (times.length / 2) 0) := by
  obtain ⟨-, -, -, -, hmed, -⟩ := computeStats_fields h
  exact ⟨fun he => by rw [hmed, medianOf_even he],
    fun ho => by rw [hmed, medianOf_odd ho]⟩

/-- Witness for C2 at the spec's example `[10, 20, 30, 40]`:
`median = (20 + 30)/2 = 25`. -/
theorem computeStats_median_central_witness :
    (computeStats [10, 20, 30, 40]).map Stats.median = some 25 := by
  have hs := computeStats_of_ne_nil (show ([10, 20, 30, 40] : List ℚ) ≠ [] by simp)
  have h := (computeStats_median_central [10, 20, 30, 40] _ hs).1 (by decide)
  have hsort : sortedOf [10, 20, 30, 40] = [10, 20, 30, 40] :=
    List.mergeSort_eq_self (by decide)
  rw [hs]
  simp only [Option.map_some']
  dsimp only at h
  rw [h, hsort]
  norm_num [List.getD]

/-- Claim C3: for every sample list with at least two entries, the `jitter`
returned by `computeStats` is the mean of `|sample[i] − sample[i−1]|` over
the `N − 1` consecutive pairs of the input in its original order (the sort
for median/percentiles acts on a copy and leaves the input untouched), and
for a single sample the jitter is 0. -/
theorem computeStats_jitter_consecutive (times : List ℚ) (s : Stats)
    (h : computeStats times = some s) :
    (2 ≤ times.length →
      s.jitter = (∑ i ∈ Finset.range (times.length - 1),
        |times.getD (i + 1) 0 - times.getD i 0|) / ((times.length : ℚ) - 1)) ∧
    (times.length = 1 → s.jitter = 0) := by
  obtain ⟨-, -, -, -, -, -, -, -, hj, -⟩ := computeStats_fields h
  constructor
  · intro h2
    rw [hj, jitterOf, if_pos (by omega), absDiffSum_eq]
  · intro h1
    rw [hj, jitterOf, if_neg (by omega)]

/-- Witness for C3 at the spec's example `[10, 15, 10]`:
`jitter = (|15−10| + |10−15|)/2 = 5`. -/
theorem computeStats_jitter_consecutive_witness :
    (computeStats [10, 15, 10]).map Stats.jitter = some 5 := by
  have hs := computeStats_of_ne_nil (show ([10, 15, 10] : List ℚ) ≠ [] by simp)
  have h := (computeStats_jitter_consecutive [10, 15, 10] _ hs).1 (by decide)
  rw [hs]
  simp only [Option.map_some']
  dsimp only at h
  rw [h]
  norm_num [Finset.sum_range_succ, List.getD]

/-- Singleton sample lists are already sorted. -/
theorem sortedOf_singleton (x : ℚ) : sortedOf [x] = [x] :=
  List.mergeSort_eq_self (List.sorted_singleton x)

/-- Claim C4: for every non-empty sample list, the `stddev` returned by
`computeStats` is the population standard deviation — the square root of
the sum of squared deviations from `avg` over the original-order list,
divided by `N` (not `N − 1`) — and `computeStats [x]` returns
`avg = min = max = median = x` with `stddev = 0`. -/
theorem computeStats_stddev_population :
    (∀ (times : List ℚ) (s : Stats), computeStats times = some s →
      s.stddev =
        Real.sqrt ((((times.map fun t => (t - s.avg) ^ 2).sum) /
          (times.length : ℚ) : ℚ))) ∧
    (∀ x : ℚ, ∃ s, computeStats [x] = some s ∧
      s.avg = x ∧ s.min = x ∧ s.max = x ∧ s.median = x ∧ s.stddev = 0) := by
  constructor
  · intro times s h
    obtain ⟨-, havg, -, -, -, -, -, hstd, -, -⟩ := computeStats_fields h
    rw [hstd, stddevOf, varianceOf_eq, havg]
  · intro x
    have havg : avgOf [x] = x := by
      rw [avgOf, sumOf_eq_sum]
      simp
    refine ⟨_, computeStats_of_ne_nil (by simp), havg, ?_, ?_, ?_, ?_⟩
    · simp [sortedOf_singleton]
    · simp [sortedOf_singleton]
    · rw [medianOf_odd (by simp)]
      simp [sortedOf_singleton]
    · show stddevOf [x] = 0
      rw [stddevOf, varianceOf_eq, havg]
      simp

/-- Claim C5: `computeStats` applied to the empty list returns `none` — no
`Stats` record at all, distinguishable from any `Stats` value — and a
measured-round loop whose rounds all fail hands `computeStats` an empty
sample list, so its stats are absent. -/
theorem computeStats_empty_absent :
    computeStats [] = none ∧
    (∀ s : Stats, computeStats [] ≠ some s) ∧
    (∀ outcomes : List RoundOutcome,
      (∀ o ∈ outcomes, ∃ m, o = RoundOutcome.err m) →
      (measuredRounds outcomes).1 = [] ∧
      computeStats (measuredRounds outcomes).1 = none) := by
  have hempty : computeStats [] = none := by
    rw [computeStats]
    simp
  refine ⟨hempty, fun s hs => by rw [hempty] at hs; exact Option.noConfusion hs, ?_⟩
  intro outcomes hall
  have h1 : (measuredRounds outcomes).1 = [] := by
    rw [measuredRounds_eq]
    rw [List.filterMap_eq_nil_iff]
    intro o ho
    obtain ⟨m, rfl⟩ := hall o ho
    rfl
  exact ⟨h1, by rw [h1, hempty]⟩

/-- Every entry of the sorted copy lies between its first and last entries. -/
theorem sortedOf_getD_bounds {times : List ℚ} {i : ℕ} (h : i < times.length) :
    (sortedOf times).getD 0 0 ≤ (sortedOf times).getD i 0 ∧
    (sortedOf times).getD i 0 ≤
      (sortedOf times).getD ((sortedOf times).length - 1) 0 := by
  have hi : i < (sortedOf times).length := by
    rw [length_sortedOf]
    exact h
  have hmem := getD_mem hi
  exact ⟨sorted_getD_zero_le (sortedOf_sorted times) hmem,
    sorted_le_getD_last (sortedOf_sorted times) hmem⟩

/-- The arithmetic mean lies between the first and last entries of the
sorted copy. -/
theorem avg_bounds {times : List ℚ} (h : times ≠ []) :
    (sortedOf times).getD 0 0 ≤ avgOf times ∧
    avgOf times ≤ (sortedOf times).getD ((sortedOf times).length - 1) 0 := by
  have hpos : 0 < times.length := List.length_pos.mpr h
  have hlo : ∀ x ∈ times, (sortedOf times).getD 0 0 ≤ x := fun x hx =>
    sorted_getD_zero_le (sortedOf_sorted times) (mem_sortedOf.mpr hx)
  have hhi : ∀ x ∈ times,
      x ≤ (sortedOf times).getD ((sortedOf times).length - 1) 0 := fun x hx =>
    sorted_le_getD_last (sortedOf_sorted times) (mem_sortedOf.mpr hx)
  have h1 := List.card_nsmul_le_sum times _ hlo
  have h2 := List.sum_le_card_nsmul times _ hhi
  rw [nsmul_eq_mul] at h1 h2
  have hn : (0 : ℚ) < times.length := by exact_mod_cast hpos
  constructor
  · rw [avgOf, sumOf_eq_sum, le_div_iff₀ hn, mul_comm]
    exact h1
  · rw [avgOf, sumOf_eq_sum, div_le_iff₀ hn, mul_comm]
    exact h2

/-- The median lies between the first and last entries of the sorted copy. -/
theorem median_bounds {times : List ℚ} (h : times ≠ []) :
    (sortedOf times).getD 0 0 ≤ medianOf times ∧
    medianOf times ≤ (sortedOf times).getD ((sortedOf times).length - 1) 0 := by
  have hpos : 0 < times.length := List.length_pos.mpr h
  rcases Nat.mod_two_eq_zero_or_one times.length with he | ho
  · have h2 : 2 ≤ times.length := by omega
    have hb1 := @sortedOf_getD_bounds times (times.length / 2 - 1) (by omega)
    have hb2 := @sortedOf_getD_bounds times (times.length / 2) (by omega)
    rw [medianOf_even he]
    constructor
    · linarith [hb1.1, hb2.1]
    · linarith [hb1.2, hb2.2]
  · have hb := @sortedOf_getD_bounds times (times.length / 2) (by omega)
    rw [medianOf_odd ho]
    exact hb

/-- Claim C6: for every non-empty sample list, the `Stats` returned by
`computeStats` satisfy `min ≤ median ≤ max` and `min ≤ avg ≤ max`. -/
theorem computeStats_order_bounds (times : List ℚ) (h : times ≠ []) :
    ∃ s, computeStats times = some s ∧
      s.min ≤ s.median ∧ s.median ≤ s.max ∧ s.min ≤ s.avg ∧ s.avg ≤ s.max := by
  refine ⟨_, computeStats_of_ne_nil h, ?_, ?_, ?_, ?_⟩ <;> dsimp only
  · exact (median_bounds h).1
  · exact (median_bounds h).2
  · exact (avg_bounds h).1
  · exact (avg_bounds h).2

/-- Witness for C6 at the sample list `[10, 30, 20]`. -/
theorem computeStats_order_bounds_witness :
    ∃ s, computeStats [10, 30, 20] = some s ∧
      s.min ≤ s.median ∧ s.median ≤ s.max ∧ s.min ≤ s.avg ∧ s.avg ≤ s.max :=
  computeStats_order_bounds [10, 30, 20] (by simp)

/-- Claim C7: in every measured-round loop over `ROUNDS` rounds, a failing
round records its error and the loop continues, so the whole outcome list
is consumed and each round contributes exactly one of a sample or an error:
recorded samples plus recorded errors equal `ROUNDS`. -/
theorem measuredRounds_counts (outcomes : List RoundOutcome)
    (h : outcomes.length = ROUNDS) :
    (measuredRounds outcomes).1.length + (measuredRounds outcomes).2.length =
      ROUNDS := by
  have hlen : ∀ outs : List RoundOutcome,
      (outs.filterMap sampleOf).length + (outs.filterMap errorOf).length =
        outs.length := by
    intro outs
    induction outs with
    | nil => rfl
    | cons o rest ih =>
      cases o with
      | ok t =>
        have h1 : (RoundOutcome.ok t :: rest).filterMap sampleOf =
            t :: rest.filterMap sampleOf := by
          simp [List.filterMap_cons, sampleOf]
        have h2 : (RoundOutcome.ok t :: rest).filterMap errorOf =
            rest.filterMap errorOf := by
          simp [List.filterMap_cons, errorOf]
        rw [h1, h2, List.length_cons, List.length_cons]
        omega
      | err m =>
        have h1 : (RoundOutcome.err m :: rest).filterMap sampleOf =
            rest.filterMap sampleOf := by
          simp [List.filterMap_cons, sampleOf]
        have h2 : (RoundOutcome.err m :: rest).filterMap errorOf =
            m :: rest.filterMap errorOf := by
          simp [List.filterMap_cons, errorOf]
        rw [h1, h2, List.length_cons, List.length_cons]
        omega
  rw [← h, measuredRounds_eq]
  dsimp only
  exact hlen outcomes

/-- Witness for C7: a 30-round loop with 29 successes and one failure ends
with 29 samples plus 1 error, totalling `ROUNDS`. -/
theorem measuredRounds_counts_witness :
    (measuredRounds
        (List.replicate 29 (RoundOutcome.ok 1) ++ [RoundOutcome.err "Timeout"])).1.length +
      (measuredRounds
        (List.replicate 29 (RoundOutcome.ok 1) ++ [RoundOutcome.err "Timeout"])).2.length =
      ROUNDS :=
  measuredRounds_counts _ (by simp [ROUNDS])

/-- Claim C8: for every sequence of events reaching the `measureWS`
handlers, the first event settles the outcome and every later event is a
no-op: the promise is settled by exactly one of open/error/timeout, and a
state once settled is never changed by any further event sequence. -/
theorem measureWS_single_settlement :
    ∀ events : List WSEvent,
      measureWS events = events.head?.map eventOutcome ∧
      ∀ o : WSOutcome, List.foldl settleEvent (some o) events = some o := by
  have habs : ∀ (events : List WSEvent) (o : WSOutcome),
      List.foldl settleEvent (some o) events = some o := by
    intro events o
    induction events with
    | nil => rfl
    | cons e rest ih => simpa [settleEvent] using ih
  intro events
  refine ⟨?_, habs events⟩
  cases events with
  | nil => rfl
  | cons e rest => simp [measureWS, settleEvent, habs]

/-- The sample a ping round contributes, if any. -/
def pingSample : PingOutcome → Option ℚ
  | .pong r => some r
  | .dropped => none

/-- The ping loop records exactly the successful rounds' RTTs, in round
order. -/
theorem measureWSPingPong_eq (outcomes : List PingOutcome) :
    measureWSPingPong outcomes = (outcomes.filterMap pingSample, true) := by
  suffices h : ∀ ts : List ℚ,
      outcomes.foldl
        (fun ts o =>
          match o with
          | PingOutcome.pong r => ts ++ [r]
          | PingOutcome.dropped => ts) ts =
      ts ++ outcomes.filterMap pingSample by
    simpa [measureWSPingPong] using h []
  induction outcomes with
  | nil => simp
  | cons o rest ih =>
    intro ts
    cases o with
    | pong r => simp [List.filterMap_cons, pingSample, ih]
    | dropped => simp [List.filterMap_cons, pingSample, ih]

/-- Claim C9: a ping round whose pong times out contributes no sample and
does not abort the loop or the connection: for `rounds` outcome rounds the
connection is still closed at the end, the returned sequence lists the
successful RTTs in order, and its length is exactly
`rounds − (number of timed-out pings)`, hence at most `rounds`; in
particular 5 rounds with 2 timeouts return 3 samples. -/
theorem measureWSPingPong_partial_results :
    (∀ outcomes : List PingOutcome,
      (measureWSPingPong outcomes).2 = true ∧
      (measureWSPingPong outcomes).1 = outcomes.filterMap pingSample ∧
      (measureWSPingPong outcomes).1.length =
        outcomes.length - outcomes.countP (fun o => isDropped o) ∧
      (measureWSPingPong outcomes).1.length ≤ outcomes.length) ∧
    (measureWSPingPong
        [PingOutcome.pong 10, PingOutcome.dropped, PingOutcome.pong 12,
          PingOutcome.dropped, PingOutcome.pong 11]).1.length = 3 ∧
    (measureWSPingPong
        [PingOutcome.pong 10, PingOutcome.dropped, PingOutcome.pong 12,
          PingOutcome.dropped, PingOutcome.pong 11]).2 = true := by
  have hlen : ∀ outcomes : List PingOutcome,
      (outcomes.filterMap pingSample).length +
        outcomes.countP (fun o => isDropped o) = outcomes.length := by
    intro outcomes
    induction outcomes with
    | nil => rfl
    | cons o rest ih =>
      cases o with
      | pong r =>
        have h1 : (PingOutcome.pong r :: rest).filterMap pingSample =
            r :: rest.filterMap pingSample := by
          simp [List.filterMap_cons, pingSample]
        have h2 : (PingOutcome.pong r :: rest).countP (fun o => isDropped o) =
            rest.countP (fun o => isDropped o) := by
          simp [List.countP_cons, isDropped]
        rw [h1, h2, List.length_cons, List.length_cons]
        omega
      | dropped =>
        have h1 : (PingOutcome.dropped :: rest).filterMap pingSample =
            rest.filterMap pingSample := by
          simp [List.filterMap_cons, pingSample]
        have h2 : (PingOutcome.dropped :: rest).countP (fun o => isDropped o) =
            rest.countP (fun o => isDropped o) + 1 := by
          simp [List.countP_cons, isDropped]
        rw [h1, h2, List.length_cons]
        omega
  refine ⟨fun outcomes => ?_, ?_, ?_⟩
  · have h := hlen outcomes
    have he := measureWSPingPong_eq outcomes
    refine ⟨by rw [he], by rw [he], ?_, ?_⟩
    · rw [he]
      dsimp only
      omega
    · rw [he]
      dsimp only
      omega
  · rw [measureWSPingPong_eq]
    rfl
  · rw [measureWSPingPong_eq]

/-- Claim C10: the `measureDNS` callback always resolves to a result record
(the probe never throws or rejects): the elapsed time of the attempt is
reported whatever the outcome, a failed resolution yields an empty address
list together with the error code, and a successful one yields the
addresses with no error code. -/
theorem measureDNS_never_rejects :
    ∀ (elapsed : ℚ) (res : Except String (List String)),
      (measureDNS elapsed res).time = elapsed ∧
      (∀ code, res = Except.error code →
        (measureDNS elapsed res).addresses = [] ∧
        (measureDNS elapsed res).error = some code) ∧
      (∀ addrs, res = Except.ok addrs →
        (measureDNS elapsed res).addresses = addrs ∧
        (measureDNS elapsed res).error = none) := by
  intro elapsed res
  refine ⟨?_, ?_, ?_⟩
  · cases res <;> rfl
  · intro code hc
    subst hc
    exact ⟨rfl, rfl⟩
  · intro addrs ha
    subst ha
    exact ⟨rfl, rfl⟩

end Latency
